import Mathlib

/-!
Verification development for the SAM exported-maps layer
(`src/api/data_structures.h`) and for the case-resolution core its
specification describes (dependency classification, evaluation planning).

Part 1 embeds the concrete helper `ui_forms_for_config` from the source
header, together with the `std::unordered_map::operator[]` access it
performs on the global `SAM_config_to_input_pages` (the map state is
threaded explicitly; `operator[]` default-inserts an empty entry for an
absent key).

Part 2 models the resolution pipeline (classifier and planner).  The
header only declares the data structures (`config_variables_info`,
producer/consumer edge sets) — the functions themselves are not part of
the fragment — so those definitions are modelled from the spec, as noted
on each definition.
-/

/-- From the source: an input page with its sidebar title, ui forms common
to the page, an exclusive variable, and exclusive ui forms. -/
structure page_info where
  sidebar_title : String
  common_uiforms : List String
  exclusive_var : String
  exclusive_uiforms : List String
deriving DecidableEq

/-- The global `SAM_config_to_input_pages` map, threaded explicitly as an
association list from configuration names to page lists. -/
abbrev InputPagesMap : Type := List (String × List page_info)

/-- Pure lookup in the input-pages map (no mutation). -/
def mapLookup (m : InputPagesMap) (k : String) : Option (List page_info) :=
  (List.find? (fun e => e.1 = k) m).map (fun e => e.2)

/-- Models `std::unordered_map::operator[]`: returns the mapped value and
the (possibly updated) map; an absent key is default-inserted with an
empty value, and that empty value is returned. -/
def bracketGet (m : InputPagesMap) (k : String) : List page_info × InputPagesMap :=
  match List.find? (fun e => e.1 = k) m with
  | some e => (e.2, m)
  | none => ([], m ++ [(k, [])])

/-- From the source: `ui_forms_for_config` walks the configuration's pages
in order and pushes each page's common ui forms then its exclusive ui
forms onto one vector.  The global map access is `operator[]`, so the
updated map is returned alongside the collected forms. -/
def ui_forms_for_config (m : InputPagesMap) (config_name : String) :
    List String × InputPagesMap :=
  let pm := bracketGet m config_name
  (pm.1.foldl (fun acc p => (acc ++ p.common_uiforms) ++ p.exclusive_uiforms) [], pm.2)

/-- The specification-side description of the collected forms: the
concatenation, in page order, of each page's common forms followed by its
exclusive forms. -/
def ui_forms_spec (pages : List page_info) : List String :=
  (pages.map (fun p => p.common_uiforms ++ p.exclusive_uiforms)).flatten

lemma ui_forms_foldl_eq (pages : List page_info) :
    ∀ acc : List String,
      pages.foldl (fun acc p => (acc ++ p.common_uiforms) ++ p.exclusive_uiforms) acc
        = acc ++ ui_forms_spec pages := by
  induction pages with
  | nil => intro acc; simp [ui_forms_spec]
  | cons p rest ih =>
      intro acc
      simp only [List.foldl_cons, ih, ui_forms_spec, List.map_cons, List.flatten]
      simp [List.append_assoc]

/-- Claim C9: for a configuration registered in the input-page map,
`ui_forms_for_config` returns exactly the concatenation, in page
declaration order, of each page's common ui forms followed by all of that
page's exclusive ui forms, preserving order and without deduplication. -/
theorem ui_forms_for_config_is_page_concat
    (m : InputPagesMap) (cfg : String) (pages : List page_info)
    (h : mapLookup m cfg = some pages) :
    (ui_forms_for_config m cfg).1 = ui_forms_spec pages := by
  unfold mapLookup at h
  obtain ⟨e, hf, he⟩ :
      ∃ e, List.find? (fun e => e.1 = cfg) m = some e ∧ e.2 = pages := by
    cases hf : List.find? (fun e => e.1 = cfg) m with
    | none => rw [hf] at h; simp at h
    | some e =>
        rw [hf] at h
        exact ⟨e, rfl, Option.some.inj h⟩
  unfold ui_forms_for_config bracketGet
  rw [hf]
  subst he
  exact (ui_forms_foldl_eq e.2 []).trans (by simp)

def pagesW : List page_info :=
  [⟨"Location", ["Solar Resource Data", "Shared Form"], "", []⟩,
   ⟨"System Design", ["Shared Form"], "ex_var", ["Detailed Model", "Simple Model"]⟩]

def mapW : InputPagesMap := [("MSLF-None", pagesW)]

/-- Witness for C9 at a concrete map: the configuration is registered, and
the returned forms are the per-page concatenation (note the repeated
entry, which is not deduplicated). -/
theorem ui_forms_for_config_is_page_concat_witness :
    mapLookup mapW "MSLF-None" = some pagesW ∧
      (ui_forms_for_config mapW "MSLF-None").1 = ui_forms_spec pagesW :=
  ⟨by decide, ui_forms_for_config_is_page_concat mapW "MSLF-None" pagesW (by decide)⟩

/-- Claim C10: looking up an unregistered configuration does not fail: the
function returns the empty form list and, as a side effect of
`operator[]`, the returned map state gains a default-inserted empty entry
for that configuration. -/
theorem ui_forms_for_config_absent_inserts
    (m : InputPagesMap) (cfg : String)
    (h : mapLookup m cfg = none) :
    (ui_forms_for_config m cfg).1 = [] ∧
      (ui_forms_for_config m cfg).2 = m ++ [(cfg, [])] ∧
      mapLookup (ui_forms_for_config m cfg).2 cfg = some [] := by
  unfold mapLookup at h
  have hf : List.find? (fun e => e.1 = cfg) m = none := by
    cases hf : List.find? (fun e => e.1 = cfg) m with
    | none => rfl
    | some e => rw [hf] at h; simp at h
  refine ⟨?_, ?_, ?_⟩
  · unfold ui_forms_for_config bracketGet
    rw [hf]
    simp
  · unfold ui_forms_for_config bracketGet
    rw [hf]
  · unfold ui_forms_for_config bracketGet mapLookup
    rw [hf]
    simp only [List.find?_append, hf]
    simp

/-- Witness for C10 at a concrete map missing the queried configuration. -/
theorem ui_forms_for_config_absent_inserts_witness :
    mapLookup mapW "Biopower-LCOE Calculator" = none ∧
      ((ui_forms_for_config mapW "Biopower-LCOE Calculator").1 = [] ∧
        (ui_forms_for_config mapW "Biopower-LCOE Calculator").2
          = mapW ++ [("Biopower-LCOE Calculator", [])] ∧
        mapLookup (ui_forms_for_config mapW "Biopower-LCOE Calculator").2
          "Biopower-LCOE Calculator" = some []) :=
  ⟨by decide,
   ui_forms_for_config_absent_inserts mapW "Biopower-LCOE Calculator" (by decide)⟩

/-!
## Part 2 — the resolution core, modelled from the spec

The header declares the resolved data (`config_variables_info` with its
`primary_inputs` / `secondary_inputs` / `evaluated_inputs` partitions and
its producer/consumer edge sets) but the classifier, planner and
`resolve` entry point are not part of the fragment; they are modelled
from the spec below, each definition noting so.
-/

/-- Modelled from the spec: a `FormulaSpec` — a formula (equation) with an
identifier, its declared input variable names and output variable
names. -/
structure FormulaSpec where
  id : String
  inputs : List String
  outputs : List String
deriving DecidableEq, Repr

/-- Modelled from the spec: a `SecondaryModuleSpec` — a secondary
compute-module identifier, its non-calculated inputs, and the subset of
its outputs the configuration consumes. -/
structure SecondaryModuleSpec where
  id : String
  noncalc_inputs : List String
  consumed_outputs : List String
deriving DecidableEq, Repr

/-- Modelled from the spec: the static declarations `resolve` works from
for one configuration — its formulas, secondary modules, and the primary
module's identifier and required inputs. -/
structure SAMConfig where
  config_name : String
  formulas : List FormulaSpec
  secondaries : List SecondaryModuleSpec
  primary_module : String
  primary_module_inputs : List String
deriving DecidableEq

/-- Modelled from the spec: a producer (formula or secondary module) with
its identifier, the inputs it consumes and the variables it yields. -/
structure Producer where
  pid : String
  pinputs : List String
  poutputs : List String
deriving DecidableEq

def defaultProducer : Producer := ⟨"", [], []⟩

/-- The configuration's producers in declaration order: formulas first
(yielding their outputs), then secondary modules (yielding their consumed
outputs). -/
def producersOf (c : SAMConfig) : List Producer :=
  c.formulas.map (fun f => ⟨f.id, f.inputs, f.outputs⟩) ++
    c.secondaries.map (fun m => ⟨m.id, m.noncalc_inputs, m.consumed_outputs⟩)

/-- All variables yielded by some producer. -/
def producedVars (c : SAMConfig) : List String :=
  (producersOf c).flatMap Producer.poutputs

/-- Every variable required as an input somewhere: formula inputs,
secondary-module non-calculated inputs, and primary-module inputs. -/
def requiredInputs (c : SAMConfig) : List String :=
  c.formulas.flatMap FormulaSpec.inputs ++
    c.secondaries.flatMap SecondaryModuleSpec.noncalc_inputs ++
      c.primary_module_inputs

def hasProducer (c : SAMConfig) (v : String) : Bool :=
  decide (v ∈ producedVars c)

def consumedByFormula (c : SAMConfig) (v : String) : Bool :=
  c.formulas.any (fun f => decide (v ∈ f.inputs))

def consumedBySecondary (c : SAMConfig) (v : String) : Bool :=
  c.secondaries.any (fun m => decide (v ∈ m.noncalc_inputs))

def consumedByPrimary (c : SAMConfig) (v : String) : Bool :=
  decide (v ∈ c.primary_module_inputs)

/-- Modelled from the spec: the resolved partition and dependency edges
(`CaseVariableInfo`, matching the header's `config_variables_info`
declaration extended with the spec's `producer_edges` and
`consumer_edges`). -/
structure CaseVariableInfo where
  config_name : String
  primary_inputs : List String
  secondary_inputs : List String
  evaluated_inputs : List String
  producer_edges : List (String × String)
  consumer_edges : List (String × String)
deriving DecidableEq, Repr

/-- Modelled from the spec: the Dependency Classifier.  Every input
required anywhere is classified: a variable with a producer is an
evaluated input; one without a producer consumed by any secondary module
or formula is a secondary input; one consumed only by the primary module
is a primary input.  Producer and consumer edges record every
(producer, variable) and (variable, consumer) pair. -/
def caseVariablesInfo (c : SAMConfig) : CaseVariableInfo :=
  let req := (requiredInputs c).dedup
  { config_name := c.config_name
    primary_inputs :=
      req.filter (fun v => !hasProducer c v &&
        !(consumedBySecondary c v || consumedByFormula c v))
    secondary_inputs :=
      req.filter (fun v => !hasProducer c v &&
        (consumedBySecondary c v || consumedByFormula c v))
    evaluated_inputs := req.filter (fun v => hasProducer c v)
    producer_edges :=
      ((producersOf c).flatMap (fun p => p.poutputs.map (fun v => (p.pid, v)))).dedup
    consumer_edges :=
      (c.formulas.flatMap (fun f => f.inputs.map (fun v => (v, f.id))) ++
        c.secondaries.flatMap (fun m => m.noncalc_inputs.map (fun v => (v, m.id))) ++
          c.primary_module_inputs.map (fun v => (v, c.primary_module))).dedup }

/-- Modelled from the spec: the first variable (in declaration order of
the producers' outputs) claimed as an output by two producers, if any —
the single-producer invariant check. -/
def duplicateProducerVar (ps : List Producer) : Option String :=
  (ps.flatMap Producer.poutputs).find?
    (fun v => decide (2 ≤ ps.countP (fun p => decide (v ∈ p.poutputs))))

/-- Modelled from the spec: the planner's dependency graph on producer
indices — an edge from producer `i` to producer `j` when some output of
`i` is an input of `j`. -/
def configEdge (c : SAMConfig) (i j : Nat) : Bool :=
  ((producersOf c).getD i defaultProducer).poutputs.any
    (fun v => decide (v ∈ ((producersOf c).getD j defaultProducer).pinputs))

/-- First number in `[s, s+k)` satisfying `p`. -/
def firstB (p : Nat → Bool) : Nat → Nat → Option Nat
  | _, 0 => none
  | s, k+1 => if p s then some s else firstB p (s+1) k

/-- Whether a predicate holds on every number below the bound. -/
def allBelow (p : Nat → Bool) : Nat → Bool
  | 0 => true
  | k+1 => allBelow p k && p k

/-- A producer is ready when it is not yet planned and every producer
with an edge into it is already planned. -/
def feasibleB (n : Nat) (edge : Nat → Nat → Bool) (done : List Nat) (j : Nat) : Bool :=
  !(decide (j ∈ done)) && allBelow (fun i => !edge i j || decide (i ∈ done)) n

/-- The declaration-least ready producer, if any. -/
def pick (n : Nat) (edge : Nat → Nat → Bool) (done : List Nat) : Option Nat :=
  firstB (feasibleB n edge done) 0 n

/-- Some unplanned predecessor of `j`, used when walking back along edges
to exhibit a cycle. -/
def predOf (n : Nat) (edge : Nat → Nat → Bool) (done : List Nat) (j : Nat) : Nat :=
  (firstB (fun i => edge i j && !(decide (i ∈ done))) 0 n).getD 0

/-- Walk backwards along unplanned predecessors until a node repeats,
returning the producers of the discovered cycle in forward edge order. -/
def findCycleAux (f : Nat → Nat) : Nat → List Nat → Nat → List Nat
  | 0, _, _ => []
  | fuel+1, seen, x =>
      if x ∈ seen then seen.takeWhile (fun y => y ≠ x) ++ [x]
      else findCycleAux f fuel (x :: seen) (f x)

/-- Extract a cycle among the producers that can no longer be planned. -/
def extractCycle (n : Nat) (edge : Nat → Nat → Bool) (done : List Nat) : List Nat :=
  match firstB (fun j => !(decide (j ∈ done))) 0 n with
  | none => []
  | some j0 => findCycleAux (predOf n edge done) (n + 1) [] j0

/-- Modelled from the spec: the Evaluation Planner's main loop.  At each
step the declaration-least ready producer is appended to the plan; when
none is ready before the plan is complete, the remaining producers
contain a cycle, which is extracted and reported. -/
def kahnAux (n : Nat) (edge : Nat → Nat → Bool) :
    Nat → List Nat → Except (List Nat) (List Nat)
  | 0, done => .ok done
  | fuel+1, done =>
      match pick n edge done with
      | some j => kahnAux n edge fuel (done ++ [j])
      | none => .error (extractCycle n edge done)

/-- Modelled from the spec: the deterministic topological sort over
producer indices — either an ordered plan or the indices of a cycle. -/
def topoSort (n : Nat) (edge : Nat → Nat → Bool) : Except (List Nat) (List Nat) :=
  kahnAux n edge n []

/-- Consecutive edges along a list of producer indices. -/
def chainB (edge : Nat → Nat → Bool) : List Nat → Bool
  | a :: b :: rest => edge a b && chainB edge (b :: rest)
  | _ => true

/-- A non-empty list of producer indices forming a directed cycle:
consecutive edges hold and an edge returns from the last index to the
first. -/
def isCycleB (edge : Nat → Nat → Bool) (c : List Nat) : Bool :=
  match c with
  | [] => false
  | h :: _ => chainB edge (c ++ [h])

/-- Modelled from the spec: resolution errors. -/
inductive ResolutionError where
  | DuplicateProducer (config_name v : String)
  | CyclicDependency (config_name : String) (cycle : List String)
deriving DecidableEq, Repr

/-- Modelled from the spec: `ResolvedCase` — the resolved partition plus
the ordered evaluation plan of producer identifiers. -/
structure ResolvedCase where
  case_info : CaseVariableInfo
  evaluation_plan : List String
deriving DecidableEq, Repr

def pidAt (c : SAMConfig) (i : Nat) : String :=
  ((producersOf c).getD i defaultProducer).pid

/-- Modelled from the spec: the Case Resolver entry point `resolve`.
Enforces the single-producer invariant, classifies the variables, and
plans the producers; a cycle is fatal and yields no `ResolvedCase`. -/
def resolve (c : SAMConfig) : Except ResolutionError ResolvedCase :=
  match duplicateProducerVar (producersOf c) with
  | some v => .error (.DuplicateProducer c.config_name v)
  | none =>
      match topoSort (producersOf c).length (configEdge c) with
      | .error cyc => .error (.CyclicDependency c.config_name (cyc.map (pidAt c)))
      | .ok order => .ok { case_info := caseVariablesInfo c
                           evaluation_plan := order.map (pidAt c) }

/-- A valid evaluation order: the producer indices below `n`, each
exactly once, with every edge source placed before its target. -/
def ValidOrder (n : Nat) (edge : Nat → Nat → Bool) (l : List Nat) : Prop :=
  l.Nodup ∧ (∀ i, i ∈ l ↔ i < n) ∧
    ∀ i j, edge i j = true → l.indexOf i < l.indexOf j

/-- Acyclicity of a producer graph, stated through the executable cycle
predicate. -/
def NoCycle (edge : Nat → Nat → Bool) : Prop :=
  ∀ cyc, isCycleB edge cyc = false

/-! ### Planner lemmas -/

lemma firstB_some (p : Nat → Bool) :
    ∀ k s j, firstB p s k = some j →
      p j = true ∧ s ≤ j ∧ j < s + k ∧ ∀ x, s ≤ x → x < j → p x = false := by
  intro k
  induction k with
  | zero => intro s j h; simp [firstB] at h
  | succ k ih =>
      intro s j h
      unfold firstB at h
      by_cases hp : p s = true
      · rw [if_pos hp] at h
        cases h
        exact ⟨hp, le_refl _, by omega, fun x hx hx' => absurd hx' (by omega)⟩
      · rw [if_neg hp] at h
        obtain ⟨h1, h2, h3, h4⟩ := ih (s+1) j h
        refine ⟨h1, by omega, by omega, ?_⟩
        intro x hx hxj
        rcases Nat.eq_or_lt_of_le hx with he | hlt
        · rw [← he]; exact Bool.not_eq_true _ ▸ (Bool.eq_false_iff.mpr hp)
        · exact h4 x hlt hxj

lemma firstB_none (p : Nat → Bool) :
    ∀ k s, firstB p s k = none → ∀ x, s ≤ x → x < s + k → p x = false := by
  intro k
  induction k with
  | zero => intro s _ x hx hx'; omega
  | succ k ih =>
      intro s h x hx hx'
      unfold firstB at h
      by_cases hp : p s = true
      · rw [if_pos hp] at h; exact absurd h (by simp)
      · rw [if_neg hp] at h
        rcases Nat.eq_or_lt_of_le hx with he | hlt
        · rw [← he]; exact Bool.eq_false_iff.mpr hp
        · exact ih (s+1) h x hlt (by omega)

lemma firstB_isSome (p : Nat → Bool) (k s : Nat)
    (h : ∃ x, s ≤ x ∧ x < s + k ∧ p x = true) :
    ∃ j, firstB p s k = some j := by
  cases hf : firstB p s k with
  | some j => exact ⟨j, rfl⟩
  | none =>
      obtain ⟨x, hx1, hx2, hx3⟩ := h
      have := firstB_none p k s hf x hx1 hx2
      rw [this] at hx3
      exact absurd hx3 (by simp)

lemma allBelow_iff (p : Nat → Bool) :
    ∀ n, allBelow p n = true ↔ ∀ i, i < n → p i = true := by
  intro n
  induction n with
  | zero => simp [allBelow]
  | succ n ih =>
      unfold allBelow
      rw [Bool.and_eq_true, ih]
      constructor
      · rintro ⟨h1, h2⟩ i hi
        rcases Nat.lt_succ_iff_lt_or_eq.mp hi with h | h
        · exact h1 i h
        · rw [h]; exact h2
      · intro h
        exact ⟨fun i hi => h i (by omega), h n (by omega)⟩

lemma feasibleB_iff (n : Nat) (edge : Nat → Nat → Bool) (done : List Nat) (j : Nat) :
    feasibleB n edge done j = true ↔
      j ∉ done ∧ ∀ i, i < n → edge i j = true → i ∈ done := by
  unfold feasibleB
  rw [Bool.and_eq_true, allBelow_iff]
  constructor
  · rintro ⟨h1, h2⟩
    refine ⟨by simpa using h1, ?_⟩
    intro i hi he
    have := h2 i hi
    rw [he] at this
    simpa using this
  · rintro ⟨h1, h2⟩
    refine ⟨by simpa using h1, ?_⟩
    intro i hi
    by_cases he : edge i j = true
    · simp [h2 i hi he]
    · simp [Bool.eq_false_iff.mpr he]

lemma chainB_tail (edge : Nat → Nat → Bool) (a : Nat) (l : List Nat)
    (h : chainB edge (a :: l) = true) : chainB edge l = true := by
  cases l with
  | nil => rfl
  | cons b rest =>
      unfold chainB at h
      simp only [Bool.and_eq_true] at h
      exact h.2

lemma chainB_head (edge : Nat → Nat → Bool) (a b : Nat) (l : List Nat)
    (h : chainB edge (a :: b :: l) = true) : edge a b = true := by
  unfold chainB at h
  simp only [Bool.and_eq_true] at h
  exact h.1

lemma chainB_initial (edge : Nat → Nat → Bool) :
    ∀ (u : List Nat) (a : Nat) (w : List Nat),
      chainB edge (u ++ a :: w) = true → chainB edge (u ++ [a]) = true := by
  intro u
  induction u with
  | nil => intro a w _; rfl
  | cons x u ih =>
      intro a w h
      cases u with
      | nil =>
          have h1 := chainB_head edge x a w h
          simpa [chainB] using h1
      | cons y u' =>
          have h1 := chainB_head edge x y (u' ++ a :: w) h
          have h2 := ih a w (chainB_tail edge x _ h)
          simpa [chainB, h1] using h2

lemma chainB_append_last (edge : Nat → Nat → Bool) :
    ∀ (l : List Nat) (a y : Nat),
      chainB edge (l ++ [a]) = true → edge a y = true →
        chainB edge ((l ++ [a]) ++ [y]) = true := by
  intro l
  induction l with
  | nil =>
      intro a y _ he
      simpa [chainB] using he
  | cons x l ih =>
      intro a y h he
      cases l with
      | nil =>
          have h1 := chainB_head edge x a [] h
          have h2 := chainB_tail edge x [a] h
          simp [chainB, h1, he]
      | cons z l' =>
          have h1 := chainB_head edge x z (l' ++ [a]) h
          have h2 := ih a y (chainB_tail edge x _ h) he
          simpa [chainB, h1] using h2

lemma takeWhile_decomp :
    ∀ (l : List Nat) (x : Nat), x ∈ l →
      ∃ rest, l = l.takeWhile (fun y => y ≠ x) ++ x :: rest := by
  intro l
  induction l with
  | nil => intro x hx; simp at hx
  | cons a l ih =>
      intro x hx
      by_cases hax : a = x
      · subst hax
        exact ⟨l, by simp [List.takeWhile]⟩
      · have hxl : x ∈ l := by
          cases List.mem_cons.mp hx with
          | inl h => exact absurd h.symm hax
          | inr h => exact h
        obtain ⟨rest, hrest⟩ := ih x hxl
        refine ⟨rest, ?_⟩
        have hp : decide (a ≠ x) = true := by simpa using hax
        rw [@List.takeWhile_cons_of_pos _ (fun y => decide (y ≠ x)) a l hp,
          List.cons_append, ← hrest]

lemma findCycleAux_spec (edge : Nat → Nat → Bool) (f : Nat → Nat) (R : List Nat)
    (hf : ∀ y ∈ R, f y ∈ R ∧ edge (f y) y = true) :
    ∀ (fuel : Nat) (seen : List Nat) (x : Nat),
      chainB edge (x :: seen) = true →
      (∀ y ∈ x :: seen, y ∈ R) →
      seen.Nodup →
      R.length + 1 ≤ fuel + seen.length →
      isCycleB edge (findCycleAux f fuel seen x) = true := by
  intro fuel
  induction fuel with
  | zero =>
      intro seen x _ hmem hnd hlen
      have hsub : seen ⊆ R := fun y hy => hmem y (List.mem_cons_of_mem x hy)
      have := (List.Nodup.subperm hnd hsub).length_le
      omega
  | succ fuel ih =>
      intro seen x hchain hmem hnd hlen
      unfold findCycleAux
      by_cases hx : x ∈ seen
      · rw [if_pos hx]
        obtain ⟨rest, hdec⟩ := takeWhile_decomp seen x hx
        set t := seen.takeWhile (fun y => y ≠ x) with ht
        cases htc : t with
        | nil =>
            have hseen : seen = x :: rest := by rw [hdec, htc]; simp
            have hxx : edge x x = true := by
              rw [hseen] at hchain
              exact chainB_head edge x x rest hchain
            simp [isCycleB, chainB, hxx]
        | cons h t' =>
            have hchainseen : chainB edge seen = true := chainB_tail edge x seen hchain
            have hchain2 : chainB edge (t ++ [x]) = true := by
              rw [hdec] at hchainseen
              exact chainB_initial edge t x rest hchainseen
            have hexh : edge x h = true := by
              have hc : chainB edge (x :: (t ++ x :: rest)) = true := by
                rw [← hdec]; exact hchain
              rw [htc] at hc
              exact chainB_head edge x h (t' ++ x :: rest) hc
            have hfull : chainB edge ((t ++ [x]) ++ [h]) = true :=
              chainB_append_last edge t x h hchain2 hexh
            rw [htc] at hfull
            simpa [isCycleB, htc] using hfull
      · rw [if_neg hx]
        have hxR : x ∈ R := hmem x (List.mem_cons_self x seen)
        obtain ⟨hfR, hfe⟩ := hf x hxR
        apply ih (x :: seen) (f x)
        · unfold chainB
          rw [Bool.and_eq_true]
          exact ⟨hfe, hchain⟩
        · intro y hy
          cases List.mem_cons.mp hy with
          | inl h => rw [h]; exact hfR
          | inr h => exact hmem y h
        · exact List.nodup_cons.mpr ⟨hx, hnd⟩
        · simp only [List.length_cons]
          omega

lemma extractCycle_spec (n : Nat) (edge : Nat → Nat → Bool) (done : List Nat)
    (hstuck : ∀ j, j < n → j ∉ done → ∃ i, i < n ∧ edge i j = true ∧ i ∉ done)
    (hrem : ∃ j, j < n ∧ j ∉ done) :
    isCycleB edge (extractCycle n edge done) = true := by
  classical
  obtain ⟨j, hjn, hjd⟩ := hrem
  have hj0 : ∃ j0, firstB (fun j => !(decide (j ∈ done))) 0 n = some j0 := by
    apply firstB_isSome
    exact ⟨j, by omega, by omega, by simpa using hjd⟩
  obtain ⟨j0, hj0⟩ := hj0
  unfold extractCycle
  rw [hj0]
  have hj0p := firstB_some (fun j => !(decide (j ∈ done))) n 0 j0 hj0
  have hj0n : j0 < n := by omega
  have hj0d : j0 ∉ done := by simpa using hj0p.1
  set R : List Nat := (List.range n).filter (fun j => !(decide (j ∈ done))) with hR
  have hmemR : ∀ y, y ∈ R ↔ (y < n ∧ y ∉ done) := by
    intro y
    rw [hR, List.mem_filter, List.mem_range]
    simp
  have hf : ∀ y ∈ R, predOf n edge done y ∈ R ∧ edge (predOf n edge done y) y = true := by
    intro y hy
    obtain ⟨hyn, hyd⟩ := (hmemR y).mp hy
    obtain ⟨i, hin, hie, hid⟩ := hstuck y hyn hyd
    have hsome : ∃ i', firstB (fun i => edge i y && !(decide (i ∈ done))) 0 n = some i' := by
      apply firstB_isSome
      refine ⟨i, by omega, by omega, ?_⟩
      rw [Bool.and_eq_true, hie]
      simpa using hid
    obtain ⟨i', hi'⟩ := hsome
    have hi'p := firstB_some (fun i => edge i y && !(decide (i ∈ done))) n 0 i' hi'
    have h1 := hi'p.1
    rw [Bool.and_eq_true] at h1
    unfold predOf
    rw [hi']
    simp only [Option.getD_some]
    refine ⟨(hmemR i').mpr ⟨by omega, by simpa using h1.2⟩, h1.1⟩
  apply findCycleAux_spec edge (predOf n edge done) R hf (n+1) [] j0
  · rfl
  · intro y hy
    have : y = j0 := by simpa using hy
    rw [this]
    exact (hmemR j0).mpr ⟨hj0n, hj0d⟩
  · exact List.nodup_nil
  · have : R.length ≤ n := by
      calc R.length ≤ (List.range n).length := List.length_filter_le _ _
        _ = n := List.length_range n
    omega

/-- The planner loop's invariant: the emitted prefix is duplicate-free,
within bounds, and respects every edge into an emitted producer. -/
def PlanInv (n : Nat) (edge : Nat → Nat → Bool) (done : List Nat) : Prop :=
  done.Nodup ∧ (∀ x ∈ done, x < n) ∧
    ∀ j ∈ done, ∀ i, i < n → edge i j = true →
      i ∈ done ∧ done.indexOf i < done.indexOf j

lemma planInv_step (n : Nat) (edge : Nat → Nat → Bool) (done : List Nat) (j0 : Nat)
    (hinv : PlanInv n edge done) (hj0n : j0 < n) (hj0d : j0 ∉ done)
    (hready : ∀ i, i < n → edge i j0 = true → i ∈ done) :
    PlanInv n edge (done ++ [j0]) := by
  obtain ⟨hnd, hbound, horder⟩ := hinv
  refine ⟨?_, ?_, ?_⟩
  · rw [List.nodup_append]
    exact ⟨hnd, List.nodup_singleton j0, by simpa using hj0d⟩
  · intro x hx
    rcases List.mem_append.mp hx with h | h
    · exact hbound x h
    · simp at h; omega
  · intro j hj i hin hie
    rcases List.mem_append.mp hj with hjd | hjs
    · obtain ⟨hi, hlt⟩ := horder j hjd i hin hie
      refine ⟨List.mem_append.mpr (Or.inl hi), ?_⟩
      rw [List.indexOf_append_of_mem hi, List.indexOf_append_of_mem hjd]
      exact hlt
    · have hj0 : j = j0 := by simpa using hjs
      subst hj0
      have hi : i ∈ done := hready i hin hie
      refine ⟨List.mem_append.mpr (Or.inl hi), ?_⟩
      rw [List.indexOf_append_of_mem hi, List.indexOf_append_of_not_mem hj0d]
      have := List.indexOf_lt_length.mpr hi
      simp only [List.indexOf_cons_self]
      omega

lemma kahnAux_extends (n : Nat) (edge : Nat → Nat → Bool) :
    ∀ (fuel : Nat) (done l : List Nat),
      kahnAux n edge fuel done = .ok l → ∃ t, l = done ++ t := by
  intro fuel
  induction fuel with
  | zero =>
      intro done l h
      cases h
      exact ⟨[], by simp⟩
  | succ fuel ih =>
      intro done l h
      unfold kahnAux at h
      cases hp : pick n edge done with
      | some j =>
          rw [hp] at h
          obtain ⟨t, ht⟩ := ih (done ++ [j]) l h
          exact ⟨j :: t, by simpa using ht⟩
      | none => rw [hp] at h; cases h

lemma kahnAux_ok_valid (n : Nat) (edge : Nat → Nat → Bool)
    (hbnd : ∀ i j, edge i j = true → i < n ∧ j < n) :
    ∀ (fuel : Nat) (done l : List Nat),
      done.length + fuel = n → PlanInv n edge done →
      kahnAux n edge fuel done = .ok l → ValidOrder n edge l := by
  intro fuel
  induction fuel with
  | zero =>
      intro done l hlen hinv h
      cases h
      obtain ⟨hnd, hbound, horder⟩ := hinv
      have hsub : done ⊆ List.range n := by
        intro x hx
        rw [List.mem_range]
        exact hbound x hx
      have hperm : done.Perm (List.range n) :=
        List.Subperm.perm_of_length_le (List.Nodup.subperm hnd hsub)
          (by rw [List.length_range]; omega)
      have hmem : ∀ i, i ∈ done ↔ i < n := by
        intro i
        rw [hperm.mem_iff, List.mem_range]
      refine ⟨hnd, hmem, ?_⟩
      intro i j hie
      obtain ⟨hin, hjn⟩ := hbnd i j hie
      exact (horder j ((hmem j).mpr hjn) i hin hie).2
  | succ fuel ih =>
      intro done l hlen hinv h
      unfold kahnAux at h
      cases hp : pick n edge done with
      | some j0 =>
          rw [hp] at h
          have hj0 := firstB_some (feasibleB n edge done) n 0 j0 hp
          have hfeas := (feasibleB_iff n edge done j0).mp hj0.1
          apply ih (done ++ [j0]) l (by simp; omega)
            (planInv_step n edge done j0 hinv (by omega) hfeas.1 hfeas.2) h
      | none => rw [hp] at h; cases h

lemma kahnAux_error_cycle (n : Nat) (edge : Nat → Nat → Bool) :
    ∀ (fuel : Nat) (done cyc : List Nat),
      done.length + fuel = n →
      kahnAux n edge fuel done = .error cyc → isCycleB edge cyc = true := by
  intro fuel
  induction fuel with
  | zero => intro done cyc _ h; cases h
  | succ fuel ih =>
      intro done cyc hlen h
      unfold kahnAux at h
      cases hp : pick n edge done with
      | some j0 =>
          rw [hp] at h
          exact ih (done ++ [j0]) cyc (by simp; omega) h
      | none =>
          rw [hp] at h
          cases h
          apply extractCycle_spec n edge done
          · intro j hjn hjd
            have hfeas := firstB_none (feasibleB n edge done) n 0 hp j (by omega) (by omega)
            rw [← Bool.not_eq_true] at hfeas
            rw [feasibleB_iff] at hfeas
            push_neg at hfeas
            obtain ⟨i, hin, hie, hid⟩ := hfeas hjd
            exact ⟨i, hin, hie, hid⟩
          · have hlt : done.length < n := by omega
            by_contra hno
            push_neg at hno
            have hsub : List.range n ⊆ done := by
              intro x hx
              rw [List.mem_range] at hx
              by_contra hxd
              exact hxd (hno x hx)
            have := (List.Nodup.subperm (List.nodup_range n) hsub).length_le
            rw [List.length_range] at this
            omega

lemma chainB_pos (edge : Nat → Nat → Bool) (pos : Nat → Nat)
    (hpos : ∀ i j, edge i j = true → pos i < pos j) :
    ∀ (u : List Nat) (a b : Nat),
      chainB edge (a :: (u ++ [b])) = true → pos a < pos b := by
  intro u
  induction u with
  | nil =>
      intro a b h
      exact hpos a b (chainB_head edge a b [] h)
  | cons x u ih =>
      intro a b h
      have h1 := chainB_head edge a x (u ++ [b]) h
      have h2 := chainB_tail edge a (x :: (u ++ [b])) h
      exact lt_trans (hpos a x h1) (ih x b h2)

lemma cycle_no_valid_order (n : Nat) (edge : Nat → Nat → Bool) (c l : List Nat)
    (hc : isCycleB edge c = true) (hv : ValidOrder n edge l) : False := by
  obtain ⟨-, -, horder⟩ := hv
  cases c with
  | nil => simp [isCycleB] at hc
  | cons h t =>
      have hchain : chainB edge (h :: (t ++ [h])) = true := by
        simpa [isCycleB] using hc
      exact lt_irrefl _ (chainB_pos edge (fun i => l.indexOf i) horder t h h hchain)

lemma validOrder_length (n : Nat) (edge : Nat → Nat → Bool) (l : List Nat)
    (hv : ValidOrder n edge l) : l.length = n := by
  obtain ⟨hnd, hmem, -⟩ := hv
  have hperm : l.Perm (List.range n) := by
    apply List.Subperm.perm_of_length_le
    · apply List.Nodup.subperm hnd
      intro x hx
      rw [List.mem_range]
      exact (hmem x).mp hx
    · rw [List.length_range]
      by_contra hlt
      push_neg at hlt
      have hsub : List.range n ⊆ l := by
        intro x hx
        rw [List.mem_range] at hx
        exact (hmem x).mpr hx
      have := (List.Nodup.subperm (List.nodup_range n) hsub).length_le
      rw [List.length_range] at this
      omega
  rw [hperm.length_eq, List.length_range]

lemma lex_append_cons (d : List Nat) (a b : Nat) (u v : List Nat) (h : a < b) :
    List.Lex (· < ·) (d ++ a :: u) (d ++ b :: v) := by
  induction d with
  | nil => exact List.Lex.rel h
  | cons x d ih => exact List.Lex.cons ih

lemma kahnAux_lex (n : Nat) (edge : Nat → Nat → Bool) :
    ∀ (fuel : Nat) (done l : List Nat),
      done.length + fuel = n →
      kahnAux n edge fuel done = .ok l →
      ∀ l', ValidOrder n edge (done ++ l') →
        l = done ++ l' ∨ List.Lex (· < ·) l (done ++ l') := by
  intro fuel
  induction fuel with
  | zero =>
      intro done l hlen h l' hv
      cases h
      have := validOrder_length n edge (done ++ l') hv
      rw [List.length_append] at this
      have : l' = [] := by
        apply List.eq_nil_of_length_eq_zero
        omega
      rw [this]
      left
      simp
  | succ fuel ih =>
      intro done l hlen h l' hv
      unfold kahnAux at h
      cases hp : pick n edge done with
      | none => rw [hp] at h; cases h
      | some j0 =>
          rw [hp] at h
          have hj0 := firstB_some (feasibleB n edge done) n 0 j0 hp
          have hfeas := (feasibleB_iff n edge done j0).mp hj0.1
          cases l' with
          | nil =>
              have := validOrder_length n edge (done ++ []) hv
              rw [List.length_append] at this
              simp at this
              omega
          | cons a l'' =>
              by_cases ha : a = j0
              · subst ha
                have hres := ih (done ++ [a]) l (by simp; omega) h l''
                  (by simpa using hv)
                rcases hres with he | hlex
                · left; simpa using he
                · right; simpa using hlex
              · obtain ⟨hndL, hmemL, horderL⟩ := hv
                have hand : a ∉ done := by
                  rw [List.nodup_append] at hndL
                  intro had
                  exact hndL.2.2 had (List.mem_cons_self a l'')
                have han : a < n := by
                  rw [← hmemL a]
                  exact List.mem_append.mpr (Or.inr (List.mem_cons_self a l''))
                have hidxa : (done ++ a :: l'').indexOf a = done.length := by
                  rw [List.indexOf_append_of_not_mem hand]
                  simp
                have hafeas : feasibleB n edge done a = true := by
                  rw [feasibleB_iff]
                  refine ⟨hand, ?_⟩
                  intro i hin hie
                  have hlt := horderL i a hie
                  rw [hidxa] at hlt
                  have hiL : i ∈ done ++ a :: l'' :=
                    (hmemL i).mpr hin
                  have hidx := List.indexOf_lt_length.mpr hiL
                  have hget : (done ++ a :: l'').get ⟨(done ++ a :: l'').indexOf i, hidx⟩ = i := by
                    rw [List.get_eq_getElem]
                    exact List.getElem_indexOf hidx
                  have hlt2 : (done ++ a :: l'').indexOf i < done.length := hlt
                  have hgd : (done ++ a :: l'').get ⟨(done ++ a :: l'').indexOf i, hidx⟩
                      = done.get ⟨(done ++ a :: l'').indexOf i, hlt2⟩ := by
                    simp only [List.get_eq_getElem]
                    exact List.getElem_append_left hlt2
                  rw [hgd] at hget
                  rw [← hget]
                  exact List.get_mem done _ hlt2
                have hja : j0 < a := by
                  rcases Nat.lt_trichotomy j0 a with hlt | heq | hgt
                  · exact hlt
                  · exact absurd heq.symm ha
                  · have := hj0.2.2.2 a (by omega) hgt
                    rw [hafeas] at this
                    exact absurd this (by simp)
                right
                obtain ⟨t, ht⟩ := kahnAux_extends n edge fuel (done ++ [j0]) l h
                rw [ht, List.append_assoc]
                simp only [List.singleton_append]
                exact lex_append_cons done j0 a t l'' hja

/-! ### Bridge lemmas between `resolve` and the planner -/

lemma configEdge_bounds (c : SAMConfig) (i j : Nat)
    (h : configEdge c i j = true) :
    i < (producersOf c).length ∧ j < (producersOf c).length := by
  unfold configEdge at h
  rw [List.any_eq_true] at h
  obtain ⟨v, hv, hmem⟩ := h
  constructor
  · by_contra hi
    push_neg at hi
    rw [List.getD_eq_default _ _ hi] at hv
    simp [defaultProducer] at hv
  · by_contra hj
    push_neg at hj
    rw [List.getD_eq_default _ _ hj] at hmem
    simp [defaultProducer] at hmem

lemma resolve_ok_inversion (c : SAMConfig) (r : ResolvedCase)
    (h : resolve c = .ok r) :
    duplicateProducerVar (producersOf c) = none ∧
      ∃ order, topoSort (producersOf c).length (configEdge c) = .ok order ∧
        r = ⟨caseVariablesInfo c, order.map (pidAt c)⟩ := by
  unfold resolve at h
  cases hd : duplicateProducerVar (producersOf c) with
  | some v => rw [hd] at h; cases h
  | none =>
      rw [hd] at h
      cases ht : topoSort (producersOf c).length (configEdge c) with
      | error cyc => rw [ht] at h; cases h
      | ok order =>
          rw [ht] at h
          cases h
          exact ⟨rfl, order, rfl, rfl⟩

lemma topoSort_ok_valid (c : SAMConfig) (order : List Nat)
    (h : topoSort (producersOf c).length (configEdge c) = .ok order) :
    ValidOrder (producersOf c).length (configEdge c) order := by
  apply kahnAux_ok_valid (producersOf c).length (configEdge c) (configEdge_bounds c)
    (producersOf c).length [] order
  · simp
  · exact ⟨List.nodup_nil, by simp, by simp⟩
  · exact h

lemma noEdge_noCycle (edge : Nat → Nat → Bool) (h : ∀ i j, edge i j = false) :
    NoCycle edge := by
  intro cyc
  cases cyc with
  | nil => rfl
  | cons a t =>
      show chainB edge ((a :: t) ++ [a]) = false
      rw [List.cons_append]
      cases ht : t ++ [a] with
      | nil => exact absurd ht (by simp)
      | cons y r =>
          unfold chainB
          rw [h a y]
          rfl

lemma emptyInputs_noEdge (c : SAMConfig)
    (h : ∀ j, ((producersOf c).getD j defaultProducer).pinputs = []) :
    ∀ i j, configEdge c i j = false := by
  intro i j
  unfold configEdge
  rw [h j]
  simp

lemma getD_pinputs_empty (ps : List Producer) (h : ∀ p ∈ ps, p.pinputs = []) :
    ∀ j, (ps.getD j defaultProducer).pinputs = [] := by
  intro j
  by_cases hj : j < ps.length
  · rw [List.getD_eq_getElem _ _ hj]
    exact h _ (List.getElem_mem hj)
  · push_neg at hj
    rw [List.getD_eq_default _ _ hj]
    rfl

def cfgDup : SAMConfig :=
  ⟨"Biopower-LCOE Calculator",
   [⟨"F1", [], ["x"]⟩, ⟨"F2", [], ["x"]⟩], [], "biomass", ["x"]⟩

/-- Counterexample to claim C2 as stated: a configuration whose producer
graph is acyclic (it has no edges at all) but on which `resolve` fails,
because two formulas both claim the output `x` and the single-producer
check precedes planning. -/
theorem resolve_acyclic_succeeds_counterexample :
    NoCycle (configEdge cfgDup) ∧
      resolve cfgDup = .error
        (.DuplicateProducer "Biopower-LCOE Calculator" "x") :=
  ⟨noEdge_noCycle _ (emptyInputs_noEdge cfgDup (getD_pinputs_empty _ (by decide))),
   by rfl⟩

/-- Claim C2 (amended): for every configuration satisfying the
single-producer invariant whose producer dependency graph is acyclic,
`resolve` succeeds, and the returned evaluation plan maps an ordering of
all producer indices in which every producer appears after all producers
of its own inputs. -/
theorem resolve_acyclic_succeeds (c : SAMConfig)
    (hdup : duplicateProducerVar (producersOf c) = none)
    (hacyc : NoCycle (configEdge c)) :
    ∃ r, resolve c = .ok r ∧
      ∃ l : List Nat,
        ValidOrder (producersOf c).length (configEdge c) l ∧
          r.evaluation_plan = l.map (pidAt c) := by
  unfold resolve
  rw [hdup]
  cases ht : topoSort (producersOf c).length (configEdge c) with
  | error cyc =>
      have hic := kahnAux_error_cycle (producersOf c).length (configEdge c)
        (producersOf c).length [] cyc (by simp) ht
      rw [hacyc cyc] at hic
      exact absurd hic (by simp)
  | ok order =>
      exact ⟨_, rfl, order, topoSort_ok_valid c order ht, rfl⟩

def cfgNoDep : SAMConfig :=
  ⟨"Flat Plate PV-None", [⟨"F1", [], ["b"]⟩], [], "pvwattsv5", ["b"]⟩

/-- Witness for the amended C2 at a concrete duplicate-free acyclic
configuration. -/
theorem resolve_acyclic_succeeds_witness :
    duplicateProducerVar (producersOf cfgNoDep) = none ∧
      NoCycle (configEdge cfgNoDep) ∧
      ∃ r, resolve cfgNoDep = .ok r ∧
        ∃ l : List Nat,
          ValidOrder (producersOf cfgNoDep).length (configEdge cfgNoDep) l ∧
            r.evaluation_plan = l.map (pidAt cfgNoDep) := by
  have hac : NoCycle (configEdge cfgNoDep) :=
    noEdge_noCycle _ (emptyInputs_noEdge cfgNoDep (getD_pinputs_empty _ (by decide)))
  exact ⟨by decide, hac, resolve_acyclic_succeeds cfgNoDep (by decide) hac⟩

def cfgCycleDup : SAMConfig :=
  ⟨"SWH-Cycle", [⟨"F1", ["b"], ["a", "x"]⟩, ⟨"F2", ["a"], ["b", "x"]⟩],
   [], "swh", ["a"]⟩

/-- Counterexample to claim C3 as stated: a configuration whose producer
graph has the cycle F1 -> F2 -> F1, yet `resolve` does not fail with
`CyclicDependency` — the duplicated output `x` makes the single-producer
check fail first, so the error is `DuplicateProducer`. -/
theorem resolve_cyclic_fails_counterexample :
    isCycleB (configEdge cfgCycleDup) [0, 1] = true ∧
      resolve cfgCycleDup = .error (.DuplicateProducer "SWH-Cycle" "x") :=
  ⟨by decide, by rfl⟩

/-- Claim C3 (amended): for every configuration satisfying the
single-producer invariant whose producer dependency graph contains a
cycle, `resolve` fails with a `CyclicDependency` error naming, in cyclic
order, every producer of a genuine cycle of the graph, and no
`ResolvedCase` is produced. -/
theorem resolve_cyclic_fails (c : SAMConfig)
    (hdup : duplicateProducerVar (producersOf c) = none)
    (hcyc : ∃ cyc, isCycleB (configEdge c) cyc = true) :
    ∃ cyc, isCycleB (configEdge c) cyc = true ∧
      resolve c = .error
        (.CyclicDependency c.config_name (cyc.map (pidAt c))) := by
  unfold resolve
  rw [hdup]
  cases ht : topoSort (producersOf c).length (configEdge c) with
  | ok order =>
      obtain ⟨cyc, hc⟩ := hcyc
      exact (cycle_no_valid_order (producersOf c).length (configEdge c) cyc order hc
        (topoSort_ok_valid c order ht)).elim
  | error cyc' =>
      have hic := kahnAux_error_cycle (producersOf c).length (configEdge c)
        (producersOf c).length [] cyc' (by simp) ht
      exact ⟨cyc', hic, rfl⟩

def cfgCycle : SAMConfig :=
  ⟨"Wind Power-Loop", [⟨"F1", ["b"], ["a"]⟩, ⟨"F2", ["a"], ["b"]⟩],
   [], "windpower", ["a"]⟩

/-- Witness for the amended C3 at a concrete duplicate-free cyclic
configuration. -/
theorem resolve_cyclic_fails_witness :
    duplicateProducerVar (producersOf cfgCycle) = none ∧
      isCycleB (configEdge cfgCycle) [0, 1] = true ∧
      ∃ cyc, isCycleB (configEdge cfgCycle) cyc = true ∧
        resolve cfgCycle = .error
          (.CyclicDependency cfgCycle.config_name (cyc.map (pidAt cfgCycle))) :=
  ⟨by decide, by decide,
   resolve_cyclic_fails cfgCycle (by decide) ⟨[0, 1], by decide⟩⟩

/-- Claim C1: every variable required as an input somewhere is classified
by the Dependency Classifier as follows — with no producer and consumed
by neither a secondary module nor a formula (hence only by the primary
module) it is a primary input; with no producer and consumed by a
secondary module or a formula it is a secondary input; with a producer it
is an evaluated input. -/
theorem classifier_rule (c : SAMConfig) (v : String)
    (hv : v ∈ requiredInputs c) :
    (hasProducer c v = false → consumedBySecondary c v = false →
        consumedByFormula c v = false →
          v ∈ (caseVariablesInfo c).primary_inputs) ∧
      (hasProducer c v = false →
        (consumedBySecondary c v = true ∨ consumedByFormula c v = true) →
          v ∈ (caseVariablesInfo c).secondary_inputs) ∧
      (hasProducer c v = true → v ∈ (caseVariablesInfo c).evaluated_inputs) := by
  refine ⟨?_, ?_, ?_⟩
  · intro h1 h2 h3
    simp [caseVariablesInfo, List.mem_filter, List.mem_dedup, hv, h1, h2, h3]
  · intro h1 h2
    rcases h2 with h2 | h2 <;>
      simp [caseVariablesInfo, List.mem_filter, List.mem_dedup, hv, h1, h2]
  · intro h1
    simp [caseVariablesInfo, List.mem_filter, List.mem_dedup, hv, h1]

def cfgA : SAMConfig :=
  ⟨"PVWatts-Comm", [⟨"F1", ["tilt_raw"], ["tilt"]⟩], [], "pvwattsv5", ["tilt"]⟩

/-- Witness for C1 at a concrete configuration and variable. -/
theorem classifier_rule_witness :
    "tilt_raw" ∈ requiredInputs cfgA ∧
      ((hasProducer cfgA "tilt_raw" = false →
          consumedBySecondary cfgA "tilt_raw" = false →
          consumedByFormula cfgA "tilt_raw" = false →
            "tilt_raw" ∈ (caseVariablesInfo cfgA).primary_inputs) ∧
        (hasProducer cfgA "tilt_raw" = false →
          (consumedBySecondary cfgA "tilt_raw" = true ∨
            consumedByFormula cfgA "tilt_raw" = true) →
            "tilt_raw" ∈ (caseVariablesInfo cfgA).secondary_inputs) ∧
        (hasProducer cfgA "tilt_raw" = true →
          "tilt_raw" ∈ (caseVariablesInfo cfgA).evaluated_inputs)) :=
  ⟨by decide, classifier_rule cfgA "tilt_raw" (by decide)⟩

def cfg4 : SAMConfig := ⟨"Unconsumed", [⟨"F1", [], ["b"]⟩], [], "pm", ["a"]⟩

def r4 : ResolvedCase :=
  ⟨⟨"Unconsumed", ["a"], [], [], [("F1", "b")], [("a", "pm")]⟩, ["F1"]⟩

/-- Counterexample to claim C4 as stated: resolution succeeds on this
configuration, and the variable `b` is referenced in its specs (it is an
output of formula F1) yet appears in none of the three partitions,
because nothing consumes it. -/
theorem partition_totality_counterexample :
    resolve cfg4 = .ok r4 ∧
      "b" ∈ cfg4.formulas.flatMap FormulaSpec.outputs ∧
      "b" ∉ r4.case_info.primary_inputs ∧
      "b" ∉ r4.case_info.secondary_inputs ∧
      "b" ∉ r4.case_info.evaluated_inputs :=
  ⟨by rfl, by decide, by decide, by decide, by decide⟩

/-- Claim C4 (amended): for every configuration on which `resolve`
succeeds, every variable required as an input anywhere in its specs
(formula inputs, secondary-module non-calculated inputs, primary-module
inputs) appears in exactly one of the three partitions; a variable
referenced only as a never-consumed producer output appears in none. -/
theorem resolve_partition_exactly_one (c : SAMConfig) (r : ResolvedCase)
    (v : String) (h : resolve c = .ok r) (hv : v ∈ requiredInputs c) :
    (v ∈ r.case_info.primary_inputs ∧ v ∉ r.case_info.secondary_inputs ∧
        v ∉ r.case_info.evaluated_inputs) ∨
      (v ∉ r.case_info.primary_inputs ∧ v ∈ r.case_info.secondary_inputs ∧
        v ∉ r.case_info.evaluated_inputs) ∨
      (v ∉ r.case_info.primary_inputs ∧ v ∉ r.case_info.secondary_inputs ∧
        v ∈ r.case_info.evaluated_inputs) := by
  obtain ⟨-, order, -, hr⟩ := resolve_ok_inversion c r h
  subst hr
  simp only
  cases hp : hasProducer c v with
  | true =>
      right; right
      refine ⟨?_, ?_, ?_⟩ <;>
        simp [caseVariablesInfo, List.mem_filter, List.mem_dedup, hv, hp]
  | false =>
      cases hs : (consumedBySecondary c v || consumedByFormula c v) with
      | true =>
          right; left
          rw [Bool.or_eq_true] at hs
          refine ⟨?_, ?_, ?_⟩ <;>
            rcases hs with hs | hs <;>
              simp [caseVariablesInfo, List.mem_filter, List.mem_dedup, hv, hp, hs]
      | false =>
          left
          rw [Bool.or_eq_false_iff] at hs
          refine ⟨?_, ?_, ?_⟩ <;>
            simp [caseVariablesInfo, List.mem_filter, List.mem_dedup, hv, hp,
              hs.1, hs.2]

/-- Witness for the amended C4 at a concrete configuration. -/
theorem resolve_partition_exactly_one_witness :
    resolve cfg4 = .ok r4 ∧ "a" ∈ requiredInputs cfg4 ∧
      (("a" ∈ r4.case_info.primary_inputs ∧ "a" ∉ r4.case_info.secondary_inputs ∧
          "a" ∉ r4.case_info.evaluated_inputs) ∨
        ("a" ∉ r4.case_info.primary_inputs ∧ "a" ∈ r4.case_info.secondary_inputs ∧
          "a" ∉ r4.case_info.evaluated_inputs) ∨
        ("a" ∉ r4.case_info.primary_inputs ∧ "a" ∉ r4.case_info.secondary_inputs ∧
          "a" ∈ r4.case_info.evaluated_inputs)) :=
  ⟨by rfl, by decide,
   resolve_partition_exactly_one cfg4 r4 "a" (by rfl) (by decide)⟩

lemma dup_none_countP_le (ps : List Producer)
    (h : duplicateProducerVar ps = none) (v : String) :
    ps.countP (fun p => decide (v ∈ p.poutputs)) ≤ 1 := by
  by_cases hv : v ∈ ps.flatMap Producer.poutputs
  · have hnp := List.find?_eq_none.mp h v hv
    simp only [decide_eq_true_eq] at hnp
    omega
  · by_contra hc
    push_neg at hc
    have hpos : 0 < ps.countP (fun p => decide (v ∈ p.poutputs)) := by omega
    rw [List.countP_pos_iff] at hpos
    obtain ⟨p, hp, hpv⟩ := hpos
    apply hv
    rw [List.mem_flatMap]
    exact ⟨p, hp, by simpa using hpv⟩

lemma nodup_all_eq_length_le_one {α : Type} (l : List α) (a : α)
    (hnd : l.Nodup) (hall : ∀ x ∈ l, x = a) : l.length ≤ 1 := by
  cases l with
  | nil => simp
  | cons x t =>
      cases t with
      | nil => simp
      | cons y t' =>
          exfalso
          have hx := hall x (by simp)
          have hy := hall y (by simp)
          rw [List.nodup_cons] at hnd
          exact hnd.1 (by rw [hx, hy]; simp)

lemma consumer_edge_exists (c : SAMConfig) (v : String)
    (hv : v ∈ requiredInputs c) :
    ∃ cid, (v, cid) ∈ (caseVariablesInfo c).consumer_edges := by
  unfold requiredInputs at hv
  rw [List.mem_append] at hv
  rcases hv with hv | hC
  · rw [List.mem_append] at hv
    rcases hv with hA | hB
    · rw [List.mem_flatMap] at hA
      obtain ⟨f, hf, hvf⟩ := hA
      refine ⟨f.id, ?_⟩
      simp only [caseVariablesInfo, List.mem_dedup, List.mem_append,
        List.mem_flatMap, List.mem_map]
      exact Or.inl (Or.inl ⟨f, hf, v, hvf, rfl⟩)
    · rw [List.mem_flatMap] at hB
      obtain ⟨m, hm, hvm⟩ := hB
      refine ⟨m.id, ?_⟩
      simp only [caseVariablesInfo, List.mem_dedup, List.mem_append,
        List.mem_flatMap, List.mem_map]
      exact Or.inl (Or.inr ⟨m, hm, v, hvm, rfl⟩)
  · refine ⟨c.primary_module, ?_⟩
    simp only [caseVariablesInfo, List.mem_dedup, List.mem_append, List.mem_map]
    exact Or.inr ⟨v, hC, rfl⟩

/-- Claim C5: after a successful resolution every evaluated input has
exactly one producer edge (the single-producer invariant) and at least
one consumer edge; and any configuration in which two distinct producers
claim the same output variable fails with `DuplicateProducer` instead of
succeeding. -/
theorem resolve_single_producer (c : SAMConfig) (r : ResolvedCase)
    (h : resolve c = .ok r) :
    (∀ v ∈ r.case_info.evaluated_inputs,
        r.case_info.producer_edges.countP (fun e => decide (e.2 = v)) = 1 ∧
          ∃ e ∈ r.case_info.consumer_edges, e.1 = v) ∧
      ∀ c' : SAMConfig,
        (∃ v i j, i < j ∧ j < (producersOf c').length ∧
          v ∈ ((producersOf c').getD i defaultProducer).poutputs ∧
          v ∈ ((producersOf c').getD j defaultProducer).poutputs) →
        ∃ w, resolve c' = .error (.DuplicateProducer c'.config_name w) := by
  obtain ⟨hdup, order, -, hr⟩ := resolve_ok_inversion c r h
  subst hr
  constructor
  · intro v hvin
    simp only at hvin
    have hv' : v ∈ (requiredInputs c).dedup ∧ hasProducer c v = true := by
      have := hvin
      unfold caseVariablesInfo at this
      simp only [List.mem_filter] at this
      exact this
    have hreq : v ∈ requiredInputs c := List.mem_dedup.mp hv'.1
    have hprod : ∃ p ∈ producersOf c, v ∈ p.poutputs := by
      have h2 := hv'.2
      unfold hasProducer producedVars at h2
      rw [decide_eq_true_eq, List.mem_flatMap] at h2
      exact h2
    have hle := dup_none_countP_le (producersOf c) hdup v
    have hpos : 0 < (producersOf c).countP (fun p => decide (v ∈ p.poutputs)) := by
      rw [List.countP_pos_iff]
      obtain ⟨p, hp, hpv⟩ := hprod
      exact ⟨p, hp, by simpa using hpv⟩
    have hcnt : (producersOf c).countP (fun p => decide (v ∈ p.poutputs)) = 1 := by
      omega
    rw [List.countP_eq_length_filter] at hcnt
    obtain ⟨q, hq⟩ := List.length_eq_one.mp hcnt
    have hqf : q ∈ (producersOf c).filter (fun p => decide (v ∈ p.poutputs)) := by
      rw [hq]; simp
    rw [List.mem_filter] at hqf
    have hqmem : q ∈ producersOf c := hqf.1
    have hqv : v ∈ q.poutputs := by simpa using hqf.2
    have hall : ∀ e ∈ (producersOf c).flatMap
        (fun p => p.poutputs.map (fun w => (p.pid, w))),
          e.2 = v → e = (q.pid, v) := by
      intro e he hev
      rw [List.mem_flatMap] at he
      obtain ⟨p, hp, hep⟩ := he
      rw [List.mem_map] at hep
      obtain ⟨w, hw, hew⟩ := hep
      have hwv : w = v := by rw [← hew] at hev; simpa using hev
      subst hwv
      have hpf : p ∈ (producersOf c).filter (fun p => decide (w ∈ p.poutputs)) := by
        rw [List.mem_filter]
        exact ⟨hp, by simpa using hw⟩
      rw [hq] at hpf
      have hpq : p = q := by simpa using hpf
      rw [← hew, hpq]
    constructor
    · have hEq : ((caseVariablesInfo c).producer_edges : List (String × String)) =
          ((producersOf c).flatMap
            (fun p => p.poutputs.map (fun w => (p.pid, w)))).dedup := rfl
      simp only
      rw [hEq]
      have hmemE : (q.pid, v) ∈ (producersOf c).flatMap
          (fun p => p.poutputs.map (fun w => (p.pid, w))) := by
        rw [List.mem_flatMap]
        refine ⟨q, hqmem, ?_⟩
        rw [List.mem_map]
        exact ⟨v, hqv, rfl⟩
      have h1 : 0 < (((producersOf c).flatMap
          (fun p => p.poutputs.map (fun w => (p.pid, w)))).dedup).countP
            (fun e => decide (e.2 = v)) := by
        rw [List.countP_pos_iff]
        exact ⟨(q.pid, v), List.mem_dedup.mpr hmemE, by simp⟩
      have h2 : (((producersOf c).flatMap
          (fun p => p.poutputs.map (fun w => (p.pid, w)))).dedup).countP
            (fun e => decide (e.2 = v)) ≤ 1 := by
        rw [List.countP_eq_length_filter]
        apply nodup_all_eq_length_le_one _ (q.pid, v)
        · exact List.Nodup.filter _ (List.nodup_dedup _)
        · intro x hx
          rw [List.mem_filter] at hx
          exact hall x (List.mem_dedup.mp hx.1) (by simpa using hx.2)
      omega
    · obtain ⟨cid, hcid⟩ := consumer_edge_exists c v hreq
      exact ⟨(v, cid), hcid, rfl⟩
  · rintro c' ⟨v, i, j, hij, hjlen, hvi, hvj⟩
    have hilen : i < (producersOf c').length := lt_trans hij hjlen
    rw [List.getD_eq_getElem _ _ hilen] at hvi
    rw [List.getD_eq_getElem _ _ hjlen] at hvj
    have hcnt2 : 2 ≤ (producersOf c').countP (fun p => decide (v ∈ p.poutputs)) := by
      have hsum := List.countP_append (fun p => decide (v ∈ p.poutputs))
        ((producersOf c').take j) ((producersOf c').drop j)
      rw [List.take_append_drop] at hsum
      have h1 : 0 < ((producersOf c').take j).countP
          (fun p => decide (v ∈ p.poutputs)) := by
        rw [List.countP_pos_iff]
        have ht1 : i < ((producersOf c').take j).length := by
          rw [List.length_take]
          exact lt_min hij hilen
        refine ⟨((producersOf c').take j).get ⟨i, ht1⟩, List.get_mem _ _ _, ?_⟩
        have ht2 : ((producersOf c').take j).get ⟨i, ht1⟩
            = (producersOf c').get ⟨i, hilen⟩ := by
          simp only [List.get_eq_getElem]
          exact List.getElem_take ..
        rw [ht2]
        simp only [List.get_eq_getElem, decide_eq_true_eq]
        exact hvi
      have h2 : 0 < ((producersOf c').drop j).countP
          (fun p => decide (v ∈ p.poutputs)) := by
        rw [List.countP_pos_iff]
        have hd1 : 0 < ((producersOf c').drop j).length := by
          rw [List.length_drop]
          omega
        refine ⟨((producersOf c').drop j).get ⟨0, hd1⟩, List.get_mem _ _ _, ?_⟩
        have hd2 : ((producersOf c').drop j).get ⟨0, hd1⟩
            = (producersOf c').get ⟨j, hjlen⟩ := by
          simp only [List.get_eq_getElem]
          simp [List.getElem_drop]
        rw [hd2]
        simp only [List.get_eq_getElem, decide_eq_true_eq]
        exact hvj
      omega
    have hvmem : v ∈ (producersOf c').flatMap Producer.poutputs := by
      rw [List.mem_flatMap]
      refine ⟨(producersOf c').get ⟨i, hilen⟩, List.get_mem _ _ _, ?_⟩
      simp only [List.get_eq_getElem]
      exact hvi
    cases hfind : duplicateProducerVar (producersOf c') with
    | none =>
        have := List.find?_eq_none.mp hfind v hvmem
        simp only [decide_eq_true_eq] at this
        omega
    | some w =>
        refine ⟨w, ?_⟩
        unfold resolve
        rw [hfind]

def cfg5 : SAMConfig :=
  ⟨"Wind Power-Residential", [⟨"F1", ["a"], ["b"]⟩],
   [⟨"M1", ["b"], ["r"]⟩], "windpower", ["r"]⟩

def r5 : ResolvedCase :=
  ⟨⟨"Wind Power-Residential", [], ["a"], ["b", "r"],
    [("F1", "b"), ("M1", "r")],
    [("a", "F1"), ("b", "M1"), ("r", "windpower")]⟩, ["F1", "M1"]⟩

/-- Witness for C5 at a concrete configuration with a formula feeding a
secondary module feeding the primary module. -/
theorem resolve_single_producer_witness :
    resolve cfg5 = .ok r5 ∧
      ((∀ v ∈ r5.case_info.evaluated_inputs,
          r5.case_info.producer_edges.countP (fun e => decide (e.2 = v)) = 1 ∧
            ∃ e ∈ r5.case_info.consumer_edges, e.1 = v) ∧
        ∀ c' : SAMConfig,
          (∃ v i j, i < j ∧ j < (producersOf c').length ∧
            v ∈ ((producersOf c').getD i defaultProducer).poutputs ∧
            v ∈ ((producersOf c').getD j defaultProducer).poutputs) →
          ∃ w, resolve c' = .error (.DuplicateProducer c'.config_name w)) :=
  ⟨by rfl, resolve_single_producer cfg5 r5 (by rfl)⟩

/-- Claim C6: `resolve` is deterministic and idempotent — two calls on the
same declared specs yield the identical result — and the successful plan
is the least topologically valid ordering in the lexicographic order on
producer declaration indices, i.e. ties are broken by ascending
declaration order. -/
theorem resolve_deterministic_minimal (c : SAMConfig) (r : ResolvedCase)
    (h : resolve c = .ok r) :
    resolve c = resolve c ∧
      ∃ l : List Nat,
        r.evaluation_plan = l.map (pidAt c) ∧
          ValidOrder (producersOf c).length (configEdge c) l ∧
          ∀ l', ValidOrder (producersOf c).length (configEdge c) l' →
            l = l' ∨ List.Lex (· < ·) l l' := by
  obtain ⟨-, order, horder, hr⟩ := resolve_ok_inversion c r h
  subst hr
  refine ⟨rfl, order, rfl, topoSort_ok_valid c order horder, ?_⟩
  intro l' hl'
  have hk : kahnAux (producersOf c).length (configEdge c)
      (producersOf c).length [] = .ok order := horder
  have := kahnAux_lex (producersOf c).length (configEdge c)
    (producersOf c).length [] order (by simp) hk l'
    (by rw [List.nil_append]; exact hl')
  simpa using this

/-- Witness for C6 at a concrete configuration. -/
theorem resolve_deterministic_minimal_witness :
    resolve cfgA = .ok
        ⟨⟨"PVWatts-Comm", [], ["tilt_raw"], ["tilt"], [("F1", "tilt")],
          [("tilt_raw", "F1"), ("tilt", "pvwattsv5")]⟩, ["F1"]⟩ ∧
      (resolve cfgA = resolve cfgA ∧
        ∃ l : List Nat,
          (⟨⟨"PVWatts-Comm", [], ["tilt_raw"], ["tilt"], [("F1", "tilt")],
            [("tilt_raw", "F1"), ("tilt", "pvwattsv5")]⟩,
              ["F1"]⟩ : ResolvedCase).evaluation_plan = l.map (pidAt cfgA) ∧
            ValidOrder (producersOf cfgA).length (configEdge cfgA) l ∧
            ∀ l', ValidOrder (producersOf cfgA).length (configEdge cfgA) l' →
              l = l' ∨ List.Lex (· < ·) l l') :=
  ⟨by rfl, resolve_deterministic_minimal cfgA _ (by rfl)⟩
